import Mathlib

/-!
# Packet reception statistics of the LoRaWAN one-hop examples

Shallow embedding of `examples/simple-network-example.cc` and
`examples/simplr-network-example1.cc`.

* The two global `uint32_t` counters are natural numbers, every increment is
  taken modulo `2 ^ 32`.
* `double` is IEEE 754 binary64 with round-to-nearest, ties-to-even, and every
  operation is rounded to binary64 on its own (no wider intermediate format): a
  finite value is the rational it denotes, every arithmetic result is rounded by
  `F64.round`.  The two zeros are identified (all operands here are conversions
  of unsigned integers, `0.0`, `100`, or sums and quotients of those, so a
  negative zero never arises and a zero divisor is `+0`).
* What ns-3 and libc decide is a parameter (`World`): the value `time(0)`
  returns in each loop iteration, the stream `rand()` yields after `srand(seed)`,
  and how many times the gateway fires its `ReceivedPacket` trace source while
  `Simulator::Run` executes.  The callback is the only caller of `rand()`.
* Text formatting of the numbers on `std::cout` and in `prr_results.txt` is not
  modelled: a line of the file is the `double` that is streamed into it, and
  opening the file succeeds.
-/

namespace LorawanPrr

/-! ## The global counters and the reception callback -/

/-- Number of values of a `uint32_t`. -/
def uint32Size : Nat := 2 ^ 32

/-- The two globals `totalPackets` and `receivedPackets`. -/
structure Counters where
  totalPackets : Nat
  receivedPackets : Nat
deriving DecidableEq, Repr

/-- Body of `PacketReceivedCallback`; `dropPercent` is the literal the draw is
compared with (`10` in one file, `90` in the other) and `randResult` is what the
call of `rand()` returned.  The packet and the frequency index are not read. -/
def PacketReceivedCallback (dropPercent randResult : Nat) (c : Counters) : Counters :=
  if randResult % 100 < dropPercent then c
  else { c with receivedPackets := (c.receivedPackets + 1) % uint32Size }

/-- The assignments `totalPackets = 0; receivedPackets = 0;` that open the loop body. -/
def resetCounters (c : Counters) : Counters :=
  { c with totalPackets := 0, receivedPackets := 0 }

/-- One pass of the data-rate loop: `totalPackets++` (the `SetDataRate` call
acts on the MAC layer only). -/
def dataRateStep (c : Counters) : Counters :=
  { c with totalPackets := (c.totalPackets + 1) % uint32Size }

/-- The loop `for (uint32_t i = 0; i < endDevices.GetN(); i++)`, with
`endDevices.GetN() = numDevices`. -/
def setDataRates (numDevices : Nat) (c : Counters) : Counters :=
  (List.range numDevices).foldl (fun acc _ => dataRateStep acc) c

/-- Effect of `Simulator::Run()` on the counters: the connected callback runs
once per firing of the trace source, each time on the next `rand()` result. -/
def simulatorRun (dropPercent : Nat) (draws : List Nat) (c : Counters) : Counters :=
  draws.foldl (fun acc r => PacketReceivedCallback dropPercent r acc) c

/-- Whether the callback counts a packet whose draw is `r`: the test
`rand() % 100 < dropPercent` fails. -/
def delivered (dropPercent r : Nat) : Bool := decide (dropPercent ≤ r % 100)

/-! ## Binary64 arithmetic -/

/-- Value of a `double`: a finite number, an infinity, or a NaN. -/
inductive F64 where
  | fin (q : ℚ)
  | inf (neg : Bool)
  | nan
deriving DecidableEq, Repr

/-- Nearest integer, ties to the even one. -/
def roundHalfEven (s : ℚ) : ℤ :=
  if s - ⌊s⌋ < 1 / 2 then ⌊s⌋
  else if 1 / 2 < s - ⌊s⌋ then ⌊s⌋ + 1
  else if ⌊s⌋ % 2 = 0 then ⌊s⌋ else ⌊s⌋ + 1

/-- Exponent of the unit in the last place of the binade of `q`: 53 significant
bits, and never below the subnormal spacing `2 ^ (-1074)`. -/
def ulpExp (q : ℚ) : ℤ := max (Int.log 2 |q| - 52) (-1074)

/-- Largest finite binary64 value. -/
def maxFinite : ℚ := (2 ^ 53 - 1) * 2 ^ 971

/-- Rounding of an exact result to binary64. -/
def F64.round (q : ℚ) : F64 :=
  if q = 0 then F64.fin 0
  else if maxFinite < |(roundHalfEven (q / (2 : ℚ) ^ ulpExp q) : ℚ) * (2 : ℚ) ^ ulpExp q| then
    F64.inf (decide (q < 0))
  else F64.fin ((roundHalfEven (q / (2 : ℚ) ^ ulpExp q) : ℚ) * (2 : ℚ) ^ ulpExp q)

/-- Conversion of an unsigned integer to `double`. -/
def F64.ofNat (n : Nat) : F64 := F64.round (n : ℚ)

/-- Binary64 addition. -/
def F64.add : F64 → F64 → F64
  | F64.nan, _ => F64.nan
  | _, F64.nan => F64.nan
  | F64.inf a, F64.inf b => if a = b then F64.inf a else F64.nan
  | F64.inf a, F64.fin _ => F64.inf a
  | F64.fin _, F64.inf b => F64.inf b
  | F64.fin x, F64.fin y => F64.round (x + y)

/-- Binary64 multiplication. -/
def F64.mul : F64 → F64 → F64
  | F64.nan, _ => F64.nan
  | _, F64.nan => F64.nan
  | F64.inf a, F64.inf b => F64.inf (xor a b)
  | F64.inf a, F64.fin y => if y = 0 then F64.nan else F64.inf (xor a (decide (y < 0)))
  | F64.fin x, F64.inf b => if x = 0 then F64.nan else F64.inf (xor (decide (x < 0)) b)
  | F64.fin x, F64.fin y => F64.round (x * y)

/-- Binary64 division. -/
def F64.div : F64 → F64 → F64
  | F64.nan, _ => F64.nan
  | _, F64.nan => F64.nan
  | F64.inf _, F64.inf _ => F64.nan
  | F64.inf a, F64.fin y => F64.inf (xor a (decide (y < 0)))
  | F64.fin _, F64.inf _ => F64.fin 0
  | F64.fin x, F64.fin y =>
    if y = 0 then (if x = 0 then F64.nan else F64.inf (decide (x < 0)))
    else F64.round (x / y)

/-! ## One run and the experiment loop -/

/-- The expression `(static_cast<double>(receivedPackets) / totalPackets) * 100`. -/
def computePrr (c : Counters) : F64 :=
  F64.mul (F64.div (F64.ofNat c.receivedPackets) (F64.ofNat c.totalPackets)) (F64.ofNat 100)

/-- Counters when `Simulator::Run()` has returned: reset, data-rate loop, callbacks. -/
def runCounters (dropPercent numDevices : Nat) (draws : List Nat) (c : Counters) : Counters :=
  simulatorRun dropPercent draws (setDataRates numDevices (resetCounters c))

/-- The `prr` of one loop iteration entered with counters `c`. -/
def runPrr (dropPercent numDevices : Nat) (draws : List Nat) (c : Counters) : F64 :=
  computePrr (runCounters dropPercent numDevices draws c)

/-- What the program does not decide itself. -/
structure World where
  /-- Result of `time(0)` in loop iteration `j`. -/
  time : Nat → Nat
  /-- The `k`-th result of `rand()` after `srand(seed)`. -/
  rand : Nat → Nat → Nat
  /-- Number of firings of the gateway's `ReceivedPacket` trace source in iteration `j`. -/
  receptions : Nat → Nat

/-- The argument of `srand`: `static_cast<unsigned int>(time(0)) + j`. -/
def seedOf (w : World) (j : Nat) : Nat :=
  (w.time j % uint32Size + j % uint32Size) % uint32Size

/-- The `rand()` results consumed by the callbacks of iteration `j`. -/
def runDraws (w : World) (j : Nat) : List Nat :=
  (List.range (w.receptions j)).map (w.rand (seedOf w j))

/-- Program state carried around the experiment loop. -/
structure MainState where
  counters : Counters
  prrResults : List F64

/-- One iteration of `for (int j = 0; j < numRuns; j++)`. -/
def loopBody (dropPercent numDevices : Nat) (w : World) (st : MainState) (j : Nat) : MainState :=
  { counters := runCounters dropPercent numDevices (runDraws w j) st.counters
    prrResults := st.prrResults ++ [runPrr dropPercent numDevices (runDraws w j) st.counters] }

/-- The expression
`std::accumulate(prrResults.begin(), prrResults.end(), 0.0) / prrResults.size()`. -/
def averagePrr (prrResults : List F64) : F64 :=
  F64.div (prrResults.foldl F64.add (F64.fin 0)) (F64.ofNat prrResults.length)

/-- Observable outcome of `main`. -/
structure MainResult where
  prrResults : List F64
  averagePrr : F64
  /-- Lines of `prr_results.txt` if the file was opened for writing. -/
  outFile : Option (List F64)
  exitCode : Int

/-- The function `main` with its three literals as parameters. -/
def experiment (numRuns numDevices dropPercent : Nat) (w : World) : MainResult :=
  let st := (List.range numRuns).foldl (loopBody dropPercent numDevices w)
    { counters := { totalPackets := 0, receivedPackets := 0 }, prrResults := [] }
  { prrResults := st.prrResults
    averagePrr := averagePrr st.prrResults
    outFile := some (st.prrResults.map id)
    exitCode := 0 }

/-- Literal `numRuns` of both files. -/
def numRuns : Nat := 10

/-- Argument of `endDevices.Create`. -/
def numEndDevices : Nat := 6

/-- The function `main` of `simple-network-example.cc` (the callback drops below `10`). -/
def SimpleNetworkExample.main (w : World) : MainResult := experiment numRuns numEndDevices 10 w

/-- The function `main` of `simplr-network-example1.cc` (the callback drops below `90`). -/
def SimplrNetworkExample1.main (w : World) : MainResult := experiment numRuns numEndDevices 90 w

/-! ## Sample environments -/

/-- One packet reaches the gateway in the first run and none afterwards; every draw
is `99`. -/
def oneReceptionWorld : World :=
  { time := fun _ => 0, rand := fun _ _ => 99, receptions := fun j => if j = 0 then 1 else 0 }

/-- One packet reaches the gateway in the first run and all six in every later run;
every draw is `99`. -/
def busyWorld : World :=
  { time := fun _ => 0, rand := fun _ _ => 99, receptions := fun j => if j = 0 then 1 else 6 }

/-- The clock reads `t0` in every iteration; draws depend on seed and position, and runs
alternate between six and three receptions. -/
def clockWorld (t0 : Nat) : World :=
  { time := fun _ => t0
    rand := fun s k => (s * 31 + k * 17) % 1000
    receptions := fun j => if j % 2 = 0 then 6 else 3 }

/-! ## Counter lemmas -/

theorem callback_totalPackets (p r : Nat) (c : Counters) :
    (PacketReceivedCallback p r c).totalPackets = c.totalPackets := by
  unfold PacketReceivedCallback
  split <;> rfl

theorem callback_receivedPackets (p r : Nat) (c : Counters) :
    (PacketReceivedCallback p r c).receivedPackets =
      if r % 100 < p then c.receivedPackets else (c.receivedPackets + 1) % uint32Size := by
  unfold PacketReceivedCallback
  split <;> rfl

theorem simulatorRun_nil (p : Nat) (c : Counters) : simulatorRun p [] c = c := rfl

theorem simulatorRun_cons (p r : Nat) (rs : List Nat) (c : Counters) :
    simulatorRun p (r :: rs) c = simulatorRun p rs (PacketReceivedCallback p r c) := rfl

theorem simulatorRun_append (p : Nat) (xs ys : List Nat) (c : Counters) :
    simulatorRun p (xs ++ ys) c = simulatorRun p ys (simulatorRun p xs c) := by
  simp [simulatorRun, List.foldl_append]

theorem simulatorRun_totalPackets (p : Nat) (draws : List Nat) (c : Counters) :
    (simulatorRun p draws c).totalPackets = c.totalPackets := by
  induction draws generalizing c with
  | nil => rfl
  | cons r rs ih => rw [simulatorRun_cons, ih, callback_totalPackets]

theorem simulatorRun_receivedPackets (p : Nat) (draws : List Nat) (c : Counters)
    (hc : c.receivedPackets < uint32Size) :
    (simulatorRun p draws c).receivedPackets =
      (c.receivedPackets + draws.countP (delivered p)) % uint32Size := by
  induction draws generalizing c with
  | nil =>
    simp only [simulatorRun_nil, List.countP_nil, Nat.add_zero]
    exact (Nat.mod_eq_of_lt hc).symm
  | cons r rs ih =>
    rw [simulatorRun_cons]
    by_cases h : r % 100 < p
    · have hd : delivered p r = false := by simp [delivered, h]
      have hcb : PacketReceivedCallback p r c = c := by simp [PacketReceivedCallback, h]
      rw [hcb, ih c hc, List.countP_cons, hd]
      simp
    · have hd : delivered p r = true := by simp [delivered]; omega
      have hlt : (PacketReceivedCallback p r c).receivedPackets < uint32Size := by
        rw [callback_receivedPackets, if_neg h]
        exact Nat.mod_lt _ (by decide)
      rw [ih _ hlt, callback_receivedPackets, if_neg h, List.countP_cons, hd]
      simp only [uint32Size, if_true]
      omega

theorem setDataRates_receivedPackets (n : Nat) (c : Counters) :
    (setDataRates n c).receivedPackets = c.receivedPackets := by
  unfold setDataRates
  induction n with
  | zero => rfl
  | succ k ih => rw [List.range_succ, List.foldl_append]; simpa [dataRateStep] using ih

theorem setDataRates_totalPackets (n : Nat) (c : Counters) (hc : c.totalPackets < uint32Size) :
    (setDataRates n c).totalPackets = (c.totalPackets + n) % uint32Size := by
  unfold setDataRates
  induction n with
  | zero => simpa using (Nat.mod_eq_of_lt hc).symm
  | succ k ih =>
    rw [List.range_succ, List.foldl_append]
    show ((List.foldl (fun acc _ => dataRateStep acc) c (List.range k)).totalPackets + 1)
      % uint32Size = _
    rw [ih]
    simp only [uint32Size]
    omega

theorem runCounters_totalPackets (p n : Nat) (draws : List Nat) (c : Counters) :
    (runCounters p n draws c).totalPackets = n % uint32Size := by
  unfold runCounters
  rw [simulatorRun_totalPackets, setDataRates_totalPackets _ _ (by simp [resetCounters, uint32Size])]
  simp [resetCounters]

theorem runCounters_receivedPackets (p n : Nat) (draws : List Nat) (c : Counters) :
    (runCounters p n draws c).receivedPackets = draws.countP (delivered p) % uint32Size := by
  unfold runCounters
  rw [simulatorRun_receivedPackets _ _ _ (by simp [setDataRates_receivedPackets, resetCounters, uint32Size])]
  simp [setDataRates_receivedPackets, resetCounters]

/-! ## Rounding lemmas -/

theorem roundHalfEven_sub_le (s : ℚ) : |(roundHalfEven s : ℚ) - s| ≤ 1 / 2 := by
  have h1 : (⌊s⌋ : ℚ) ≤ s := Int.floor_le s
  have h2 : s < ⌊s⌋ + 1 := Int.lt_floor_add_one s
  unfold roundHalfEven
  rw [abs_le]
  split_ifs with ha hb hc
  · constructor <;> linarith
  · push_cast; constructor <;> linarith
  · constructor <;> linarith
  · push_cast; constructor <;> linarith

theorem roundHalfEven_le_int (s : ℚ) (N : ℤ) (h : s ≤ N) : roundHalfEven s ≤ N := by
  have hf : ⌊s⌋ ≤ N := Int.floor_le_iff.mpr (by linarith [Int.lt_succ_self N, show ((N:ℚ) < N + 1) by linarith])
  rcases eq_or_lt_of_le h with heq | hlt
  · have : s - ⌊s⌋ = 0 := by rw [heq]; simp
    unfold roundHalfEven
    rw [this, if_pos (by norm_num)]
    exact hf
  · have hf1 : ⌊s⌋ + 1 ≤ N := by
      have : ⌊s⌋ < N := Int.floor_lt.mpr hlt
      omega
    unfold roundHalfEven
    split_ifs <;> omega

theorem int_le_roundHalfEven (s : ℚ) (N : ℤ) (h : (N : ℚ) ≤ s) : N ≤ roundHalfEven s := by
  have hf : N ≤ ⌊s⌋ := Int.le_floor.mpr h
  unfold roundHalfEven
  split_ifs <;> omega

theorem roundHalfEven_intCast (N : ℤ) : roundHalfEven (N : ℚ) = N :=
  le_antisymm (roundHalfEven_le_int _ _ le_rfl) (int_le_roundHalfEven _ _ le_rfl)

theorem roundHalfEven_eq_of_lt (s : ℚ) (m : ℤ) (h1 : (m : ℚ) - 1 / 2 < s) (h2 : s < m + 1 / 2) :
    roundHalfEven s = m := by
  have h := roundHalfEven_sub_le s
  rw [abs_le] at h
  have ha : ((roundHalfEven s : ℤ) : ℚ) < ((m + 1 : ℤ) : ℚ) := by push_cast; linarith
  have hb : ((m - 1 : ℤ) : ℚ) < ((roundHalfEven s : ℤ) : ℚ) := by push_cast; linarith
  have ha1 := Int.cast_lt.mp ha
  have hb1 := Int.cast_lt.mp hb
  omega

theorem log_abs_eq (q : ℚ) (e : ℤ) (h1 : (2 : ℚ) ^ e ≤ |q|) (h2 : |q| < (2 : ℚ) ^ (e + 1)) :
    Int.log 2 |q| = e := by
  have hpos : 0 < |q| := lt_of_lt_of_le (by positivity) h1
  have a : e ≤ Int.log 2 |q| := (Int.zpow_le_iff_le_log (by norm_num) hpos).mp (by exact_mod_cast h1)
  have b : Int.log 2 |q| < e + 1 := (Int.lt_zpow_iff_log_lt (by norm_num) hpos).mp (by exact_mod_cast h2)
  omega

/-- Evaluation rule for a value in the normal range: binade `e`, significand `m`. -/
theorem round_eq_of_bounds (q : ℚ) (e m : ℤ) (h1 : (2 : ℚ) ^ e ≤ |q|)
    (h2 : |q| < (2 : ℚ) ^ (e + 1)) (he : -1022 ≤ e)
    (h3 : (m : ℚ) - 1 / 2 < q / (2 : ℚ) ^ (e - 52)) (h4 : q / (2 : ℚ) ^ (e - 52) < m + 1 / 2)
    (h5 : |(m : ℚ) * (2 : ℚ) ^ (e - 52)| ≤ maxFinite) :
    F64.round q = F64.fin ((m : ℚ) * (2 : ℚ) ^ (e - 52)) := by
  have hq : q ≠ 0 := by
    intro h0
    rw [h0, abs_zero] at h1
    exact absurd h1 (not_le.mpr (by positivity))
  have hk : ulpExp q = e - 52 := by
    unfold ulpExp
    rw [log_abs_eq q e h1 h2]
    exact max_eq_left (by omega)
  unfold F64.round
  rw [if_neg hq, hk, roundHalfEven_eq_of_lt _ m h3 h4, if_neg (not_lt.mpr h5)]

theorem roundHalfEven_nonneg (s : ℚ) (hs : 0 ≤ s) : 0 ≤ roundHalfEven s :=
  int_le_roundHalfEven s 0 (by simpa using hs)

theorem round_of_pos (q : ℚ) (hq : 0 < q) :
    F64.round q =
      if maxFinite < (roundHalfEven (q / (2 : ℚ) ^ ulpExp q) : ℚ) * (2 : ℚ) ^ ulpExp q then
        F64.inf false
      else F64.fin ((roundHalfEven (q / (2 : ℚ) ^ ulpExp q) : ℚ) * (2 : ℚ) ^ ulpExp q) := by
  have hp : (0 : ℚ) < (2 : ℚ) ^ ulpExp q := by positivity
  have hm : 0 ≤ roundHalfEven (q / (2 : ℚ) ^ ulpExp q) :=
    roundHalfEven_nonneg _ (div_nonneg hq.le hp.le)
  have hv : 0 ≤ (roundHalfEven (q / (2 : ℚ) ^ ulpExp q) : ℚ) * (2 : ℚ) ^ ulpExp q :=
    mul_nonneg (by exact_mod_cast hm) hp.le
  unfold F64.round
  rw [if_neg hq.ne', abs_of_nonneg hv]
  have hd : decide (q < 0) = false := by simp [hq.le]
  rw [hd]

theorem log_le_of_lt_zpow (q : ℚ) (hq : 0 < q) (e : ℤ) (h : q < (2 : ℚ) ^ (e + 1)) :
    Int.log 2 q ≤ e := by
  have := (Int.lt_zpow_iff_log_lt (b := 2) (by norm_num) hq).mp (by exact_mod_cast h)
  omega

theorem le_log_of_zpow_le (q : ℚ) (hq : 0 < q) (e : ℤ) (h : (2 : ℚ) ^ e ≤ q) :
    e ≤ Int.log 2 q :=
  (Int.zpow_le_iff_le_log (b := 2) (by norm_num) hq).mp (by exact_mod_cast h)

theorem ulpExp_nonpos (q : ℚ) (hq : 0 < q) (h : q < 2 ^ 53) : ulpExp q ≤ 0 := by
  have hl : Int.log 2 q ≤ 52 := log_le_of_lt_zpow q hq 52 (by norm_num; exact h)
  unfold ulpExp
  rw [abs_of_pos hq]
  exact max_le (by omega) (by norm_num)

theorem zpow_of_nonpos (k : ℤ) (hk : k ≤ 0) : (2 : ℚ) ^ k = ((2 : ℚ) ^ (-k).toNat)⁻¹ := by
  have h : k = -(((-k).toNat : ℕ) : ℤ) := by
    rw [Int.toNat_of_nonneg (by omega)]; ring
  conv_lhs => rw [h]
  rw [zpow_neg, zpow_natCast]

/-- A positive value whose quotient by its unit in the last place is an integer is
representable. -/
theorem round_exact (q : ℚ) (hq : 0 < q) (z : ℤ) (hz : q / (2 : ℚ) ^ ulpExp q = z)
    (hmax : q ≤ maxFinite) : F64.round q = F64.fin q := by
  have hp : (0 : ℚ) < (2 : ℚ) ^ ulpExp q := by positivity
  have hv : (roundHalfEven (q / (2 : ℚ) ^ ulpExp q) : ℚ) * (2 : ℚ) ^ ulpExp q = q := by
    rw [hz, roundHalfEven_intCast, ← hz, div_mul_cancel₀ _ hp.ne']
  rw [round_of_pos q hq, hv, if_neg (not_lt.mpr hmax)]

theorem round_natCast (n : ℕ) (hn : n < 2 ^ 53) : F64.round (n : ℚ) = F64.fin n := by
  rcases Nat.eq_zero_or_pos n with h0 | hpos
  · subst h0; simp [F64.round]
  have hq : (0 : ℚ) < n := by exact_mod_cast hpos
  have hnq : (n : ℚ) < 2 ^ 53 := by exact_mod_cast hn
  have hk : ulpExp (n : ℚ) ≤ 0 := ulpExp_nonpos _ hq hnq
  have hpow := zpow_of_nonpos _ hk
  refine round_exact _ hq ((n * 2 ^ (-(ulpExp (n : ℚ))).toNat : ℕ) : ℤ) ?_ ?_
  · rw [hpow, div_inv_eq_mul]; push_cast; rfl
  · refine le_trans hnq.le ?_
    norm_num [maxFinite]
/-- Scaled significand of a value in the normal range lies in `[2 ^ 52, 2 ^ 53)`. -/
theorem scaled_normal (q : ℚ) (hlo : (2 : ℚ) ^ (-1022 : ℤ) ≤ q) :
    ulpExp q = Int.log 2 q - 52 ∧ (2 : ℚ) ^ 52 ≤ q / (2 : ℚ) ^ ulpExp q ∧
      q / (2 : ℚ) ^ ulpExp q < (2 : ℚ) ^ 53 := by
  have hq : 0 < q := lt_of_lt_of_le (by positivity) hlo
  have he : -1022 ≤ Int.log 2 q := le_log_of_zpow_le q hq _ hlo
  have hk : ulpExp q = Int.log 2 q - 52 := by
    unfold ulpExp
    rw [abs_of_pos hq]
    exact max_eq_left (by omega)
  have h1 : (2 : ℚ) ^ Int.log 2 q ≤ q := by
    have := Int.zpow_log_le_self (b := 2) (r := q) (by norm_num) hq
    exact_mod_cast this
  have h2 : q < (2 : ℚ) ^ (Int.log 2 q + 1) := by
    have := Int.lt_zpow_succ_log_self (b := 2) (by norm_num) q
    exact_mod_cast this
  have hp : (0 : ℚ) < (2 : ℚ) ^ (Int.log 2 q - 52) := by positivity
  have e1 : (2 : ℚ) ^ Int.log 2 q = (2 : ℚ) ^ 52 * (2 : ℚ) ^ (Int.log 2 q - 52) := by
    rw [← zpow_natCast, ← zpow_add₀ (by norm_num : (2 : ℚ) ≠ 0)]
    congr 1; push_cast; ring
  have e2 : (2 : ℚ) ^ (Int.log 2 q + 1) = (2 : ℚ) ^ 53 * (2 : ℚ) ^ (Int.log 2 q - 52) := by
    rw [← zpow_natCast, ← zpow_add₀ (by norm_num : (2 : ℚ) ≠ 0)]
    congr 1; push_cast; ring
  refine ⟨hk, ?_, ?_⟩
  · rw [hk, le_div_iff₀ hp, ← e1]; exact h1
  · rw [hk, div_lt_iff₀ hp, ← e2]; exact h2

theorem zpow_le_maxFinite : (2 : ℚ) ^ 53 * (2 : ℚ) ^ (970 : ℤ) ≤ maxFinite := by
  have e : maxFinite = (2 ^ 54 - 2) * (2 : ℚ) ^ (970 : ℤ) := by
    have h971 : (2 : ℚ) ^ 971 = 2 * (2 : ℚ) ^ (970 : ℤ) := by
      rw [show (970 : ℤ) = ((970 : ℕ) : ℤ) from rfl, zpow_natCast]
      rw [← pow_succ']
    unfold maxFinite
    rw [h971]
    ring
  rw [e]
  exact mul_le_mul_of_nonneg_right (by norm_num) (by positivity)

theorem roundHalfEven_rel_err (s : ℚ) (hs : (2 : ℚ) ^ 52 ≤ s) :
    |(roundHalfEven s : ℚ) - s| * (2 ^ 53 + 1) ≤ s := by
  have habs := roundHalfEven_sub_le s
  by_cases hc : (2 : ℚ) ^ 52 + 1 / 2 ≤ s
  · calc |(roundHalfEven s : ℚ) - s| * (2 ^ 53 + 1) ≤ 1 / 2 * (2 ^ 53 + 1) :=
          mul_le_mul_of_nonneg_right habs (by norm_num)
      _ ≤ s := by linarith
  · rw [not_le] at hc
    have hlo : ((2 ^ 52 : ℤ)) ≤ roundHalfEven s := int_le_roundHalfEven s _ (by push_cast; exact hs)
    have hhi : roundHalfEven s < 2 ^ 52 + 1 := by
      rw [abs_le] at habs
      have : ((roundHalfEven s : ℤ) : ℚ) < ((2 ^ 52 + 1 : ℤ) : ℚ) := by push_cast; linarith
      exact Int.cast_lt.mp this
    have hm : roundHalfEven s = 2 ^ 52 := by omega
    rw [hm]
    push_cast
    rw [abs_of_nonpos (by linarith)]
    linarith

/-- Relative error of rounding in the normal range: at most `1 / (2 ^ 53 + 1)`. -/
theorem round_rel_err (q : ℚ) (hlo : (2 : ℚ) ^ (-1022 : ℤ) ≤ q)
    (hhi : q < (2 : ℚ) ^ (1023 : ℤ)) :
    ∃ v : ℚ, F64.round q = F64.fin v ∧ 0 < v ∧ |v - q| * (2 ^ 53 + 1) ≤ q := by
  have hq : 0 < q := lt_of_lt_of_le (by positivity) hlo
  obtain ⟨hk, hs1, hs2⟩ := scaled_normal q hlo
  have hp : (0 : ℚ) < (2 : ℚ) ^ ulpExp q := by positivity
  have hle : Int.log 2 q ≤ 1022 := log_le_of_lt_zpow q hq 1022 hhi
  have hm1 : ((2 ^ 52 : ℤ)) ≤ roundHalfEven (q / (2 : ℚ) ^ ulpExp q) :=
    int_le_roundHalfEven _ _ (by push_cast; exact hs1)
  have hm2 : roundHalfEven (q / (2 : ℚ) ^ ulpExp q) ≤ ((2 ^ 53 : ℤ)) :=
    roundHalfEven_le_int _ _ (by push_cast; exact hs2.le)
  have herr := roundHalfEven_rel_err _ hs1
  have hqs : q = q / (2 : ℚ) ^ ulpExp q * (2 : ℚ) ^ ulpExp q := (div_mul_cancel₀ _ hp.ne').symm
  generalize hm : roundHalfEven (q / (2 : ℚ) ^ ulpExp q) = m at hm1 hm2 herr
  have hm1q : (2 : ℚ) ^ 52 ≤ (m : ℚ) := by exact_mod_cast hm1
  have hm2q : (m : ℚ) ≤ (2 : ℚ) ^ 53 := by exact_mod_cast hm2
  refine ⟨(m : ℚ) * (2 : ℚ) ^ ulpExp q, ?_, by positivity, ?_⟩
  · rw [round_of_pos q hq, hm, if_neg]
    rw [not_lt]
    have hpow : (2 : ℚ) ^ ulpExp q ≤ (2 : ℚ) ^ (970 : ℤ) := by
      rw [hk]
      exact zpow_le_zpow_right₀ (by norm_num) (by omega)
    calc (m : ℚ) * (2 : ℚ) ^ ulpExp q ≤ (2 : ℚ) ^ 53 * (2 : ℚ) ^ (970 : ℤ) :=
          mul_le_mul hm2q hpow hp.le (by positivity)
      _ ≤ maxFinite := zpow_le_maxFinite
  · have e : (m : ℚ) * (2 : ℚ) ^ ulpExp q - q =
        ((m : ℚ) - q / (2 : ℚ) ^ ulpExp q) * (2 : ℚ) ^ ulpExp q := by
      rw [sub_mul, ← hqs]
    rw [e, abs_mul, abs_of_pos hp]
    calc |(m : ℚ) - q / (2 : ℚ) ^ ulpExp q| * (2 : ℚ) ^ ulpExp q * (2 ^ 53 + 1)
        = |(m : ℚ) - q / (2 : ℚ) ^ ulpExp q| * (2 ^ 53 + 1) * (2 : ℚ) ^ ulpExp q := by ring
      _ ≤ q / (2 : ℚ) ^ ulpExp q * (2 : ℚ) ^ ulpExp q := mul_le_mul_of_nonneg_right herr hp.le
      _ = q := hqs.symm

/-- A value that is at least one rounds to a positive finite value or to `+∞`. -/
theorem round_of_one_le (q : ℚ) (h1 : 1 ≤ q) :
    F64.round q = F64.inf false ∨ ∃ v : ℚ, F64.round q = F64.fin v ∧ 0 < v := by
  have hq : 0 < q := lt_of_lt_of_le one_pos h1
  obtain ⟨_, hs1, _⟩ := scaled_normal q (le_trans (by norm_num) h1)
  have hm1 : ((2 ^ 52 : ℤ)) ≤ roundHalfEven (q / (2 : ℚ) ^ ulpExp q) :=
    int_le_roundHalfEven _ _ (by push_cast; exact hs1)
  have hm1q : (2 : ℚ) ^ 52 ≤ (roundHalfEven (q / (2 : ℚ) ^ ulpExp q) : ℚ) := by exact_mod_cast hm1
  rw [round_of_pos q hq]
  split_ifs
  · exact Or.inl rfl
  · exact Or.inr ⟨_, rfl, by positivity⟩
/-! ## The PRR expression -/

theorem ofNat_eq (n : ℕ) (hn : n < 2 ^ 53) : F64.ofNat n = F64.fin n :=
  round_natCast n hn

theorem ofNat_hundred : F64.ofNat 100 = F64.fin 100 := by
  simpa using ofNat_eq 100 (by norm_num)

theorem computePrr_eq (c : Counters) (ht : 0 < c.totalPackets) (htb : c.totalPackets < 2 ^ 53)
    (hrb : c.receivedPackets < 2 ^ 53) :
    computePrr c =
      F64.mul (F64.round ((c.receivedPackets : ℚ) / (c.totalPackets : ℚ))) (F64.fin 100) := by
  have htq : (c.totalPackets : ℚ) ≠ 0 := by exact_mod_cast ht.ne'
  unfold computePrr
  rw [ofNat_eq _ htb, ofNat_eq _ hrb, ofNat_hundred]
  simp only [F64.div, if_neg htq]

theorem computePrr_rel_err (c : Counters) (hr : 0 < c.receivedPackets)
    (ht : 0 < c.totalPackets) (hrb : c.receivedPackets < 2 ^ 32) (htb : c.totalPackets < 2 ^ 32) :
    ∃ v : ℚ, computePrr c = F64.fin v ∧
      |v - 100 * (c.receivedPackets : ℚ) / (c.totalPackets : ℚ)| * 2 ^ 52 ≤
        100 * (c.receivedPackets : ℚ) / (c.totalPackets : ℚ) := by
  have htq : (0 : ℚ) < c.totalPackets := by exact_mod_cast ht
  have hr1 : (1 : ℚ) ≤ c.receivedPackets := by exact_mod_cast hr
  have ht1 : (1 : ℚ) ≤ c.totalPackets := by exact_mod_cast ht
  have hrq : (c.receivedPackets : ℚ) < 2 ^ 32 := by exact_mod_cast hrb
  have htq2 : (c.totalPackets : ℚ) < 2 ^ 32 := by exact_mod_cast htb
  set q : ℚ := (c.receivedPackets : ℚ) / (c.totalPackets : ℚ) with hqdef
  have hqlo : (1 : ℚ) / 2 ^ 32 ≤ q := by
    rw [hqdef, div_le_div_iff₀ (by positivity) htq]
    nlinarith
  have hqhi : q ≤ 2 ^ 32 := by
    rw [hqdef, div_le_iff₀ htq]
    nlinarith
  have hq : 0 < q := lt_of_lt_of_le (by positivity) hqlo
  obtain ⟨a, ha, ha0, haerr⟩ := round_rel_err q
    (le_trans (by norm_num) hqlo) (lt_of_le_of_lt hqhi (by norm_num))
  have hab := abs_le.mp (show |a - q| ≤ q / (2 ^ 53 + 1) by
    rw [le_div_iff₀ (by norm_num)]; exact haerr)
  have hqU : q / (2 ^ 53 + 1) ≤ q / 2 := by
    apply div_le_div_of_nonneg_left hq.le (by norm_num) (by norm_num)
  obtain ⟨b, hb, hb0, hberr⟩ := round_rel_err (a * 100)
    (le_trans (by norm_num) (show (1 : ℚ) / 2 ^ 33 * 100 ≤ a * 100 by nlinarith))
    (lt_of_le_of_lt (show a * 100 ≤ 2 ^ 33 * 100 by nlinarith) (by norm_num))
  refine ⟨b, ?_, ?_⟩
  · rw [computePrr_eq c ht (lt_trans htb (by norm_num)) (lt_trans hrb (by norm_num)), ha]
    exact hb
  · have e : 100 * (c.receivedPackets : ℚ) / (c.totalPackets : ℚ) = 100 * q := by
      rw [hqdef]; ring
    rw [e]
    have hbb := abs_le.mp (show |b - a * 100| ≤ a * 100 / (2 ^ 53 + 1) by
      rw [le_div_iff₀ (by norm_num)]; exact hberr)
    have hq' : q / (2 ^ 53 + 1) * (2 ^ 53 + 1) = q := div_mul_cancel₀ _ (by norm_num)
    have ha' : a * 100 / (2 ^ 53 + 1) * (2 ^ 53 + 1) = a * 100 := div_mul_cancel₀ _ (by norm_num)
    generalize q / (2 ^ 53 + 1) = dq at hab hq' hqU
    generalize a * 100 / (2 ^ 53 + 1) = da at hbb ha'
    have hda : da ≤ 100 * dq + 100 * dq / 2 ^ 53 := by
      have : da * (2 ^ 53 + 1) ≤ (100 * dq + 100 * dq / 2 ^ 53) * (2 ^ 53 + 1) := by
        rw [ha']
        have : a ≤ q + dq := by linarith [hab.2]
        have hdq : 0 ≤ dq := by linarith [hab.1, hab.2]
        have e2 : (100 * dq + 100 * dq / 2 ^ 53) * (2 ^ 53 + 1) =
            100 * (dq * (2 ^ 53 + 1)) + 100 * dq + 100 * dq / 2 ^ 53 := by field_simp; ring
        rw [e2, hq']
        have : 0 ≤ 100 * dq / 2 ^ 53 := by positivity
        linarith
      exact le_of_mul_le_mul_right this (by norm_num)
    have hdq0 : 0 ≤ dq := by linarith [hab.1, hab.2]
    have hbound : |b - 100 * q| ≤ 200 * dq + 100 * dq / 2 ^ 53 := by
      rw [abs_le]
      constructor <;> linarith [hab.1, hab.2, hbb.1, hbb.2]
    have hfin : (200 * dq + 100 * dq / 2 ^ 53) * 2 ^ 52 ≤ 100 * q := by
      rw [← hq']
      have e3 : (200 * dq + 100 * dq / 2 ^ 53) * 2 ^ 52 = 100 * dq * 2 ^ 53 + 50 * dq := by
        field_simp; ring
      rw [e3]
      nlinarith
    calc |b - 100 * q| * 2 ^ 52 ≤ (200 * dq + 100 * dq / 2 ^ 53) * 2 ^ 52 :=
          mul_le_mul_of_nonneg_right hbound (by norm_num)
      _ ≤ 100 * q := hfin
/-! ## The mean -/

theorem round_zero : F64.round 0 = F64.fin 0 := by simp [F64.round]

theorem add_fin (x y : ℚ) : F64.add (F64.fin x) (F64.fin y) = F64.round (x + y) := rfl

theorem div_fin (x y : ℚ) (hy : y ≠ 0) : F64.div (F64.fin x) (F64.fin y) = F64.round (x / y) := by
  simp only [F64.div, if_neg hy]

/-- Accumulation is exact when every partial sum is representable. -/
theorem foldl_add_exact (l : List ℚ)
    (h : ∀ k, k ≤ l.length → F64.round (l.take k).sum = F64.fin (l.take k).sum) :
    (l.map F64.fin).foldl F64.add (F64.fin 0) = F64.fin l.sum := by
  induction l using List.reverseRecOn with
  | nil => rfl
  | append_singleton xs x ih =>
    have hxs : ∀ k, k ≤ xs.length → F64.round (xs.take k).sum = F64.fin (xs.take k).sum := by
      intro k hk
      have := h k (by simp; omega)
      rwa [List.take_append_of_le_length hk] at this
    have hall := h (xs ++ [x]).length le_rfl
    rw [List.take_length] at hall
    rw [List.map_append, List.foldl_append, ih hxs]
    simp only [List.map_cons, List.map_nil, List.foldl_cons, List.foldl_nil, add_fin]
    rw [List.sum_append, List.sum_singleton] at hall ⊢
    exact hall

theorem averagePrr_exact (l : List ℚ) (hne : l ≠ []) (hlen : l.length < 2 ^ 53)
    (h : ∀ k, k ≤ l.length → F64.round (l.take k).sum = F64.fin (l.take k).sum)
    (hq : F64.round (l.sum / l.length) = F64.fin (l.sum / l.length)) :
    averagePrr (l.map F64.fin) = F64.fin (l.sum / l.length) := by
  have hpos : 0 < l.length := List.length_pos.mpr hne
  have hlq : (l.length : ℚ) ≠ 0 := by exact_mod_cast hpos.ne'
  unfold averagePrr
  rw [foldl_add_exact l h, List.length_map, ofNat_eq _ hlen, div_fin _ _ hlq, hq]

theorem averagePrr_replicate_hundred (n : ℕ) (hn : 0 < n) (hb : n ≤ 2 ^ 46) :
    averagePrr (List.replicate n (F64.fin 100)) = F64.fin 100 := by
  have hnq : (n : ℚ) ≠ 0 := by exact_mod_cast hn.ne'
  have hsum : ∀ m : ℕ, (List.replicate m (100 : ℚ)).sum = ((m * 100 : ℕ) : ℚ) := by
    intro m; simp
  have hquot : (List.replicate n (100 : ℚ)).sum / ((List.replicate n (100 : ℚ)).length : ℚ)
      = ((100 : ℕ) : ℚ) := by
    rw [hsum, List.length_replicate]; push_cast; field_simp
  have := averagePrr_exact (List.replicate n (100 : ℚ))
    (by intro h0; have := congrArg List.length h0; simp at this; omega)
    (by rw [List.length_replicate]; exact lt_of_le_of_lt hb (by norm_num))
    (by
      intro k hk
      rw [List.take_replicate, hsum]
      refine round_natCast _ ?_
      have : min k n ≤ 2 ^ 46 := le_trans (Nat.min_le_right k n) hb
      calc min k n * 100 ≤ 2 ^ 46 * 100 := Nat.mul_le_mul_right 100 this
        _ < 2 ^ 53 := by norm_num)
    (by rw [hquot]; exact round_natCast 100 (by norm_num))
  rw [List.map_replicate, hquot] at this
  simpa using this

theorem foldl_add_replicate_zero (n : ℕ) :
    (List.replicate n (F64.fin 0)).foldl F64.add (F64.fin 0) = F64.fin 0 := by
  induction n with
  | zero => rfl
  | succ k ih =>
    rw [List.replicate_succ, List.foldl_cons, add_fin, add_zero, round_zero]
    exact ih

theorem averagePrr_replicate_zero (n : ℕ) (hn : 0 < n) :
    averagePrr (List.replicate n (F64.fin 0)) = F64.fin 0 := by
  have h1 : (1 : ℚ) ≤ n := by exact_mod_cast hn
  unfold averagePrr
  rw [foldl_add_replicate_zero, List.length_replicate]
  unfold F64.ofNat
  rcases round_of_one_le _ h1 with hinf | ⟨v, hv, hvpos⟩
  · rw [hinf]; rfl
  · rw [hv, div_fin _ _ hvpos.ne', zero_div, round_zero]

theorem averagePrr_hundred_zero : averagePrr [F64.fin 100, F64.fin 0] = F64.fin 50 := by
  have h100 : F64.round 100 = F64.fin 100 := by simpa using round_natCast 100 (by norm_num)
  have h50 : F64.round 50 = F64.fin 50 := by simpa using round_natCast 50 (by norm_num)
  have h2 : F64.ofNat 2 = F64.fin 2 := by simpa using ofNat_eq 2 (by norm_num)
  simp only [averagePrr, List.foldl_cons, List.foldl_nil, add_fin, zero_add, add_zero, h100,
    List.length_cons, List.length_nil, h2]
  rw [div_fin _ _ (by norm_num)]
  norm_num
  exact h50
/-! ## Rounding error of the mean -/

theorem round_rel_err_nonneg (y : ℚ)
    (h : y = 0 ∨ ((2 : ℚ) ^ (-1022 : ℤ) ≤ y ∧ y < (2 : ℚ) ^ (1023 : ℤ))) :
    ∃ v : ℚ, F64.round y = F64.fin v ∧ 0 ≤ v ∧ |v - y| * (2 ^ 53 + 1) ≤ y := by
  rcases h with h0 | ⟨hlo, hhi⟩
  · exact ⟨0, by rw [h0, round_zero], le_rfl, by simp [h0]⟩
  · obtain ⟨v, hv, hpos, herr⟩ := round_rel_err y hlo hhi
    exact ⟨v, hv, hpos.le, herr⟩

/-- Invariant of the accumulation loop over entries that are `0` or in
`[2 ^ (-900), 2 ^ 900]`: the accumulator is finite and within `2 * length / (2 ^ 53 + 1)`
of the exact sum, relatively. -/
theorem foldl_add_rel_err (l : List ℚ) (hlen : l.length < 2 ^ 52)
    (hrange : ∀ x ∈ l, x = 0 ∨ ((2 : ℚ) ^ (-900 : ℤ) ≤ x ∧ x ≤ (2 : ℚ) ^ (900 : ℤ))) :
    0 ≤ l.sum ∧ (l.sum = 0 ∨ (2 : ℚ) ^ (-900 : ℤ) ≤ l.sum) ∧
    l.sum ≤ l.length * (2 : ℚ) ^ (900 : ℤ) ∧
    ∃ s : ℚ, (l.map F64.fin).foldl F64.add (F64.fin 0) = F64.fin s ∧
      |s - l.sum| * (2 ^ 53 + 1) ≤ 2 * l.length * l.sum := by
  induction l using List.reverseRecOn with
  | nil => exact ⟨by simp, Or.inl (by simp), by simp, 0, rfl, by simp⟩
  | append_singleton xs x ih =>
    have hxlen : xs.length < 2 ^ 52 := by
      have : (xs ++ [x]).length = xs.length + 1 := by simp
      omega
    obtain ⟨hS0, hSL, hSB, s, hs, hserr⟩ := ih hxlen (fun y hy => hrange y (by simp [hy]))
    have hx := hrange x (by simp)
    have hL : (0 : ℚ) < (2 : ℚ) ^ (-900 : ℤ) := by positivity
    have hB : (0 : ℚ) < (2 : ℚ) ^ (900 : ℤ) := by positivity
    have hx0 : 0 ≤ x := by
      rcases hx with h | ⟨h, _⟩
      · rw [h]
      · exact le_trans hL.le h
    have hxB : x ≤ (2 : ℚ) ^ (900 : ℤ) := by
      rcases hx with h | ⟨_, h⟩
      · rw [h]; exact hB.le
      · exact h
    have hk : (xs.length : ℚ) < 2 ^ 52 := by exact_mod_cast hxlen
    have hk0 : (0 : ℚ) ≤ xs.length := Nat.cast_nonneg _
    set S := xs.sum with hSdef
    set k : ℚ := (xs.length : ℚ) with hkdef
    have hsab := abs_le.mp (show |s - S| ≤ 2 * k * S / (2 ^ 53 + 1) by
      rw [le_div_iff₀ (by norm_num)]; exact hserr)
    have hkS : 2 * k * S / (2 ^ 53 + 1) ≤ S - S / (2 ^ 53 + 1) := by
      rw [div_le_iff₀ (by norm_num)]
      have : (S - S / (2 ^ 53 + 1)) * (2 ^ 53 + 1) = S * 2 ^ 53 := by field_simp; ring
      rw [this]
      nlinarith
    have hSU : 0 ≤ S / (2 ^ 53 + 1) := by positivity
    have hs_lo : S / (2 ^ 53 + 1) ≤ s := by linarith [hsab.1]
    have hs_hi : s ≤ 2 * S := by linarith [hsab.2]
    have hsum : (xs ++ [x]).sum = S + x := by simp [hSdef]
    have hlen' : (((xs ++ [x]).length : ℕ) : ℚ) = k + 1 := by simp [hkdef]
    rw [hsum, hlen']
    have hy : s + x = 0 ∨ ((2 : ℚ) ^ (-1022 : ℤ) ≤ s + x ∧ s + x < (2 : ℚ) ^ (1023 : ℤ)) := by
      have hup : s + x < (2 : ℚ) ^ (1023 : ℤ) := by
        have h1 : s + x ≤ 2 * (k * (2 : ℚ) ^ (900 : ℤ)) + (2 : ℚ) ^ (900 : ℤ) := by linarith
        have h2 : 2 * (k * (2 : ℚ) ^ (900 : ℤ)) + (2 : ℚ) ^ (900 : ℤ) ≤
            (2 : ℚ) ^ (54 : ℤ) * (2 : ℚ) ^ (900 : ℤ) := by
          have : 2 * k + 1 ≤ (2 : ℚ) ^ (54 : ℤ) := by norm_num; linarith
          nlinarith
        have h3 : (2 : ℚ) ^ (54 : ℤ) * (2 : ℚ) ^ (900 : ℤ) = (2 : ℚ) ^ (954 : ℤ) := by
          rw [← zpow_add₀ (by norm_num : (2 : ℚ) ≠ 0)]; norm_num
        have h4 : (2 : ℚ) ^ (954 : ℤ) < (2 : ℚ) ^ (1023 : ℤ) :=
          zpow_lt_zpow_right₀ (by norm_num) (by norm_num)
        linarith
      have hlow : (2 : ℚ) ^ (-1022 : ℤ) ≤ (2 : ℚ) ^ (-900 : ℤ) / (2 ^ 53 + 1) := by
        rw [le_div_iff₀ (by norm_num)]
        have h1 : (2 : ℚ) ^ (-1022 : ℤ) * (2 ^ 53 + 1) ≤
            (2 : ℚ) ^ (-1022 : ℤ) * (2 : ℚ) ^ (54 : ℤ) :=
          mul_le_mul_of_nonneg_left (by norm_num) (by positivity)
        have h2 : (2 : ℚ) ^ (-1022 : ℤ) * (2 : ℚ) ^ (54 : ℤ) = (2 : ℚ) ^ (-968 : ℤ) := by
          rw [← zpow_add₀ (by norm_num : (2 : ℚ) ≠ 0)]; norm_num
        have h3 : (2 : ℚ) ^ (-968 : ℤ) ≤ (2 : ℚ) ^ (-900 : ℤ) :=
          zpow_le_zpow_right₀ (by norm_num) (by norm_num)
        linarith
      have hLU : (2 : ℚ) ^ (-900 : ℤ) / (2 ^ 53 + 1) ≤ (2 : ℚ) ^ (-900 : ℤ) :=
        div_le_self hL.le (by norm_num)
      have hML : (2 : ℚ) ^ (-1022 : ℤ) ≤ (2 : ℚ) ^ (-900 : ℤ) := le_trans hlow hLU
      rcases hSL with hS | hS
      · rcases hx with hx | ⟨hx, _⟩
        · left
          have : s = 0 := by
            rw [hS] at hsab
            simp at hsab
            linarith [hsab.1, hsab.2]
          rw [this, hx, add_zero]
        · right
          refine ⟨?_, hup⟩
          have hs0 : 0 ≤ s := le_trans hSU hs_lo
          exact le_trans hML (le_trans hx (le_add_of_nonneg_left hs0))
      · right
        have : (2 : ℚ) ^ (-900 : ℤ) / (2 ^ 53 + 1) ≤ S / (2 ^ 53 + 1) :=
          div_le_div_of_nonneg_right hS (by norm_num)
        refine ⟨?_, hup⟩
        exact le_trans hlow (le_trans this (le_trans hs_lo (le_add_of_nonneg_right hx0)))
    obtain ⟨s', hs', hs'0, hs'err⟩ := round_rel_err_nonneg (s + x) hy
    refine ⟨by linarith, ?_, ?_, s', ?_, ?_⟩
    · rcases hSL with hS | hS
      · rcases hx with hx | ⟨hx, _⟩
        · left; rw [hS, hx, add_zero]
        · right; linarith
      · right; linarith
    · linarith
    · rw [List.map_append, List.foldl_append, hs]
      simp only [List.map_cons, List.map_nil, List.foldl_cons, List.foldl_nil, add_fin]
      exact hs'
    · have h1 := abs_le.mp (show |s' - (s + x)| ≤ (s + x) / (2 ^ 53 + 1) by
        rw [le_div_iff₀ (by norm_num)]; exact hs'err)
      have h2 : (s + x) / (2 ^ 53 + 1) + 2 * k * S / (2 ^ 53 + 1) ≤
          2 * (k + 1) * (S + x) / (2 ^ 53 + 1) := by
        rw [← add_div]
        apply div_le_div_of_nonneg_right _ (by norm_num)
        have : 2 * k * S / (2 ^ 53 + 1) ≤ S := by linarith
        have : 0 ≤ k * x := mul_nonneg hk0 hx0
        nlinarith
      have h3 : |s' - (S + x)| ≤ 2 * (k + 1) * (S + x) / (2 ^ 53 + 1) := by
        rw [abs_le]
        constructor <;> linarith [h1.1, h1.2, hsab.1, hsab.2]
      rw [le_div_iff₀ (by norm_num)] at h3
      exact h3
/-- Relative error of the reported mean for entries that are `0` or in
`[2 ^ (-900), 2 ^ 900]`: at most `(length + 1) * 2 ^ (-52)`. -/
theorem averagePrr_rel_err (l : List ℚ) (hne : l ≠ []) (hlen : l.length < 2 ^ 52)
    (hrange : ∀ x ∈ l, x = 0 ∨ ((2 : ℚ) ^ (-900 : ℤ) ≤ x ∧ x ≤ (2 : ℚ) ^ (900 : ℤ))) :
    ∃ v : ℚ, averagePrr (l.map F64.fin) = F64.fin v ∧
      |v - l.sum / l.length| * 2 ^ 52 ≤ (l.length + 1) * (l.sum / l.length) := by
  obtain ⟨hS0, hSL, hSB, s, hs, hserr⟩ := foldl_add_rel_err l hlen hrange
  have hpos : 0 < l.length := List.length_pos.mpr hne
  have hn1 : (1 : ℚ) ≤ l.length := by exact_mod_cast hpos
  have hn0 : (0 : ℚ) < l.length := lt_of_lt_of_le one_pos hn1
  have hnb : (l.length : ℚ) < 2 ^ 52 := by exact_mod_cast hlen
  have hL : (0 : ℚ) < (2 : ℚ) ^ (-900 : ℤ) := by positivity
  have hB : (0 : ℚ) < (2 : ℚ) ^ (900 : ℤ) := by positivity
  set S := l.sum with hSdef
  set n : ℚ := (l.length : ℚ) with hndef
  have hsab := abs_le.mp (show |s - S| ≤ 2 * n * S / (2 ^ 53 + 1) by
    rw [le_div_iff₀ (by norm_num)]; exact hserr)
  have hkS : 2 * n * S / (2 ^ 53 + 1) ≤ S - S / (2 ^ 53 + 1) := by
    rw [div_le_iff₀ (by norm_num)]
    have : (S - S / (2 ^ 53 + 1)) * (2 ^ 53 + 1) = S * 2 ^ 53 := by field_simp; ring
    rw [this]
    nlinarith
  have hSU : 0 ≤ S / (2 ^ 53 + 1) := by positivity
  have hs_lo : S / (2 ^ 53 + 1) ≤ s := by linarith [hsab.1]
  have hs_hi : s ≤ 2 * S := by linarith [hsab.2]
  have hs0 : 0 ≤ s := le_trans hSU hs_lo
  have hy : s / n = 0 ∨ ((2 : ℚ) ^ (-1022 : ℤ) ≤ s / n ∧ s / n < (2 : ℚ) ^ (1023 : ℤ)) := by
    rcases hSL with hS | hS
    · left
      have : s = 0 := by
        rw [hS] at hsab
        simp at hsab
        linarith [hsab.1, hsab.2]
      rw [this, zero_div]
    · right
      constructor
      · rw [le_div_iff₀ hn0]
        have h1 : (2 : ℚ) ^ (-1022 : ℤ) * n ≤ (2 : ℚ) ^ (-1022 : ℤ) * (2 : ℚ) ^ (52 : ℤ) :=
          mul_le_mul_of_nonneg_left (by norm_num; exact hnb.le) (by positivity)
        have h2 : (2 : ℚ) ^ (-1022 : ℤ) * (2 : ℚ) ^ (52 : ℤ) = (2 : ℚ) ^ (-970 : ℤ) := by
          rw [← zpow_add₀ (by norm_num : (2 : ℚ) ≠ 0)]; norm_num
        have h3 : (2 : ℚ) ^ (-970 : ℤ) ≤ (2 : ℚ) ^ (-900 : ℤ) / (2 ^ 53 + 1) := by
          rw [le_div_iff₀ (by norm_num)]
          have h4 : (2 : ℚ) ^ (-970 : ℤ) * (2 ^ 53 + 1) ≤
              (2 : ℚ) ^ (-970 : ℤ) * (2 : ℚ) ^ (54 : ℤ) :=
            mul_le_mul_of_nonneg_left (by norm_num) (by positivity)
          have h5 : (2 : ℚ) ^ (-970 : ℤ) * (2 : ℚ) ^ (54 : ℤ) = (2 : ℚ) ^ (-916 : ℤ) := by
            rw [← zpow_add₀ (by norm_num : (2 : ℚ) ≠ 0)]; norm_num
          have h6 : (2 : ℚ) ^ (-916 : ℤ) ≤ (2 : ℚ) ^ (-900 : ℤ) :=
            zpow_le_zpow_right₀ (by norm_num) (by norm_num)
          exact le_trans h4 (le_trans h5.le h6)
        have h7 : (2 : ℚ) ^ (-900 : ℤ) / (2 ^ 53 + 1) ≤ S / (2 ^ 53 + 1) :=
          div_le_div_of_nonneg_right hS (by norm_num)
        exact le_trans h1 (le_trans h2.le (le_trans h3 (le_trans h7 hs_lo)))
      · have h1 : s / n ≤ s := div_le_self hs0 hn1
        have h2 : s ≤ (2 : ℚ) ^ (53 : ℤ) * (2 : ℚ) ^ (900 : ℤ) := by
          have : 2 * n ≤ (2 : ℚ) ^ (53 : ℤ) := by norm_num; linarith
          calc s ≤ 2 * S := hs_hi
            _ ≤ 2 * (n * (2 : ℚ) ^ (900 : ℤ)) := by linarith
            _ = 2 * n * (2 : ℚ) ^ (900 : ℤ) := by ring
            _ ≤ (2 : ℚ) ^ (53 : ℤ) * (2 : ℚ) ^ (900 : ℤ) :=
              mul_le_mul_of_nonneg_right this hB.le
        have h3 : (2 : ℚ) ^ (53 : ℤ) * (2 : ℚ) ^ (900 : ℤ) = (2 : ℚ) ^ (953 : ℤ) := by
          rw [← zpow_add₀ (by norm_num : (2 : ℚ) ≠ 0)]; norm_num
        have h4 : (2 : ℚ) ^ (953 : ℤ) < (2 : ℚ) ^ (1023 : ℤ) :=
          zpow_lt_zpow_right₀ (by norm_num) (by norm_num)
        exact lt_of_le_of_lt h1 (lt_of_le_of_lt h2 (lt_of_le_of_lt h3.le h4))
  obtain ⟨v, hv, hv0, hverr⟩ := round_rel_err_nonneg (s / n) hy
  refine ⟨v, ?_, ?_⟩
  · unfold averagePrr
    rw [hs, List.length_map, ofNat_eq _ (lt_trans hlen (by norm_num)),
      div_fin _ _ hn0.ne']
    exact hv
  · have h1 := abs_le.mp (show |v - s / n| ≤ s / n / (2 ^ 53 + 1) by
      rw [le_div_iff₀ (by norm_num)]; exact hverr)
    have hsn : s / n ≤ 2 * (S / n) := by
      rw [← mul_div_assoc]
      exact div_le_div_of_nonneg_right hs_hi hn0.le
    have hdiff : |s / n - S / n| ≤ 2 * n * (S / n) / (2 ^ 53 + 1) := by
      rw [← sub_div, abs_div, abs_of_pos hn0, div_le_iff₀ hn0]
      have e : 2 * n * (S / n) / (2 ^ 53 + 1) * n = 2 * n * S / (2 ^ 53 + 1) := by
        field_simp
        ring
      rw [e, abs_le]
      exact hsab
    have h2 := abs_le.mp hdiff
    have hq0 : 0 ≤ S / n := by positivity
    have h3 : s / n / (2 ^ 53 + 1) ≤ 2 * (S / n) / (2 ^ 53 + 1) :=
      div_le_div_of_nonneg_right hsn (by norm_num)
    have h4 : |v - S / n| ≤ (2 * n + 2) * (S / n) / (2 ^ 53 + 1) := by
      have e : (2 * n + 2) * (S / n) / (2 ^ 53 + 1) =
          2 * (S / n) / (2 ^ 53 + 1) + 2 * n * (S / n) / (2 ^ 53 + 1) := by ring
      rw [e, abs_le]
      constructor <;> linarith [h1.1, h1.2, h2.1, h2.2]
    rw [le_div_iff₀ (by norm_num)] at h4
    have habs : 0 ≤ |v - S / n| := abs_nonneg _
    nlinarith
/-! ## Lemmas on the experiment loop -/

theorem resetCounters_eq (c : Counters) :
    resetCounters c = { totalPackets := 0, receivedPackets := 0 } := rfl

theorem runCounters_indep (p n : Nat) (draws : List Nat) (c c' : Counters) :
    runCounters p n draws c = runCounters p n draws c' := by
  unfold runCounters
  rw [resetCounters_eq c, resetCounters_eq c']

theorem runPrr_indep (p n : Nat) (draws : List Nat) (c c' : Counters) :
    runPrr p n draws c = runPrr p n draws c' := by
  unfold runPrr
  rw [runCounters_indep p n draws c c']

theorem loop_prrResults (p n : Nat) (w : World) (c : Counters) (m : Nat) (st : MainState) :
    ((List.range m).foldl (loopBody p n w) st).prrResults =
      st.prrResults ++ (List.range m).map (fun j => runPrr p n (runDraws w j) c) := by
  induction m with
  | zero => simp
  | succ k ih =>
    rw [List.range_succ, List.foldl_append, List.map_append, ← List.append_assoc, ← ih]
    simp only [List.foldl_cons, List.foldl_nil, List.map_cons, List.map_nil, loopBody]
    rw [runPrr_indep p n _ _ c]

theorem experiment_prrResults (numRuns n p : Nat) (w : World) (c : Counters) :
    (experiment numRuns n p w).prrResults =
      (List.range numRuns).map (fun j => runPrr p n (runDraws w j) c) := by
  unfold experiment
  simp only [loop_prrResults p n w c, List.nil_append]

theorem experiment_averagePrr (numRuns n p : Nat) (w : World) :
    (experiment numRuns n p w).averagePrr = averagePrr (experiment numRuns n p w).prrResults :=
  rfl

theorem experiment_outFile (numRuns n p : Nat) (w : World) :
    (experiment numRuns n p w).outFile = some (experiment numRuns n p w).prrResults := by
  unfold experiment
  simp only [List.map_id]

theorem experiment_exitCode (numRuns n p : Nat) (w : World) :
    (experiment numRuns n p w).exitCode = 0 := rfl

/-! ## Concrete evaluations -/

theorem round_sixth : F64.round (1 / 6) = F64.fin (6004799503160661 / 36028797018963968) := by
  have h := round_eq_of_bounds (1 / 6) (-3) 6004799503160661 (by norm_num [abs_of_pos])
    (by norm_num [abs_of_pos]) (by norm_num) (by norm_num) (by norm_num)
    (by norm_num [maxFinite, abs_of_pos])
  rw [h]
  norm_num

theorem round_sixth_hundred :
    F64.round (6004799503160661 / 36028797018963968 * 100) =
      F64.fin (2345624805922133 / 140737488355328) := by
  have h := round_eq_of_bounds (6004799503160661 / 36028797018963968 * 100) 4 4691249611844266
    (by norm_num [abs_of_pos]) (by norm_num [abs_of_pos]) (by norm_num) (by norm_num)
    (by norm_num) (by norm_num [maxFinite, abs_of_pos])
  rw [h]
  norm_num

theorem round_prr_one_of_six :
    F64.round (2345624805922133 / 140737488355328) =
      F64.fin (2345624805922133 / 140737488355328) := by
  have h := round_eq_of_bounds (2345624805922133 / 140737488355328) 4 4691249611844266
    (by norm_num [abs_of_pos]) (by norm_num [abs_of_pos]) (by norm_num) (by norm_num)
    (by norm_num) (by norm_num [maxFinite, abs_of_pos])
  rw [h]
  norm_num

theorem round_prr_one_of_six_div_ten :
    F64.round (2345624805922133 / 140737488355328 / 10) =
      F64.fin (3752999689475413 / 2251799813685248) := by
  have h := round_eq_of_bounds (2345624805922133 / 140737488355328 / 10) 0 7505999378950826
    (by norm_num [abs_of_pos]) (by norm_num [abs_of_pos]) (by norm_num) (by norm_num)
    (by norm_num) (by norm_num [maxFinite, abs_of_pos])
  rw [h]
  norm_num

theorem round_hundred_thirds :
    F64.round (100 / 3) = F64.fin (4691249611844267 / 140737488355328) := by
  have h := round_eq_of_bounds (100 / 3) 5 4691249611844267
    (by norm_num [abs_of_pos]) (by norm_num [abs_of_pos]) (by norm_num) (by norm_num)
    (by norm_num) (by norm_num [maxFinite, abs_of_pos])
  rw [h]
  norm_num

theorem computePrr_one_of_six :
    computePrr { totalPackets := 6, receivedPackets := 1 } =
      F64.fin (2345624805922133 / 140737488355328) := by
  rw [computePrr_eq _ (by norm_num) (by norm_num) (by norm_num)]
  simp only [Nat.cast_one, Nat.cast_ofNat, round_sixth]
  exact round_sixth_hundred

theorem computePrr_zero_received (t : Nat) (ht : 0 < t) (htb : t < 2 ^ 53) :
    computePrr { totalPackets := t, receivedPackets := 0 } = F64.fin 0 := by
  rw [computePrr_eq _ ht htb (by norm_num)]
  simp only [Nat.cast_zero, zero_div, round_zero]
  show F64.round (0 * 100) = F64.fin 0
  rw [zero_mul, round_zero]

theorem computePrr_zero_zero :
    computePrr { totalPackets := 0, receivedPackets := 0 } = F64.nan := by
  simp [computePrr, F64.ofNat, round_zero, F64.div, F64.mul]

theorem averagePrr_nil : averagePrr [] = F64.nan := by
  simp [averagePrr, F64.ofNat, round_zero, F64.div]
/-! ## Auxiliary facts for the claims -/

theorem computePrr_of_dvd (c : Counters) (ht : 0 < c.totalPackets)
    (htb : c.totalPackets < 2 ^ 32) (hrb : c.receivedPackets < 2 ^ 32)
    (hd : c.totalPackets ∣ c.receivedPackets) :
    computePrr c = F64.fin (100 * (c.receivedPackets : ℚ) / (c.totalPackets : ℚ)) := by
  obtain ⟨k, hk⟩ := hd
  have htq : (c.totalPackets : ℚ) ≠ 0 := by exact_mod_cast ht.ne'
  have hkb : k < 2 ^ 32 := by
    have : k ≤ c.receivedPackets := by
      rw [hk]; exact Nat.le_mul_of_pos_left k ht
    omega
  have e1 : (c.receivedPackets : ℚ) / (c.totalPackets : ℚ) = (k : ℚ) := by
    rw [hk]; push_cast; field_simp
  have e2 : 100 * (c.receivedPackets : ℚ) / (c.totalPackets : ℚ) = ((k * 100 : ℕ) : ℚ) := by
    rw [mul_div_assoc, e1]; push_cast; ring
  rw [computePrr_eq c ht (lt_trans htb (by norm_num)) (lt_trans hrb (by norm_num)), e1, e2,
    round_natCast k (lt_trans hkb (by norm_num))]
  show F64.round ((k : ℚ) * 100) = _
  have := round_natCast (k * 100) (by omega)
  push_cast at this ⊢
  exact this

theorem runCounters_totalPackets_lt (p n : Nat) (draws : List Nat) (c : Counters) :
    (runCounters p n draws c).totalPackets < 2 ^ 32 := by
  rw [runCounters_totalPackets]
  exact Nat.mod_lt _ (by norm_num [uint32Size])

theorem runCounters_receivedPackets_lt (p n : Nat) (draws : List Nat) (c : Counters) :
    (runCounters p n draws c).receivedPackets < 2 ^ 32 := by
  rw [runCounters_receivedPackets]
  exact Nat.mod_lt _ (by norm_num [uint32Size])

theorem runCounters_received_le (p n : Nat) (draws : List Nat) (c : Counters)
    (hn : n < uint32Size) (hlen : draws.length ≤ n) :
    (runCounters p n draws c).receivedPackets ≤ (runCounters p n draws c).totalPackets := by
  rw [runCounters_totalPackets, runCounters_receivedPackets, Nat.mod_eq_of_lt hn]
  exact le_trans (Nat.mod_le _ _) (le_trans (List.countP_le_length _) hlen)

theorem experiment_getElem? (numRuns n p : Nat) (w : World) (c : Counters) (j : Nat)
    (hj : j < numRuns) :
    (experiment numRuns n p w).prrResults[j]? = some (runPrr p n (runDraws w j) c) := by
  rw [experiment_prrResults numRuns n p w c, List.getElem?_map, List.getElem?_range hj]
  rfl

theorem experiment_length (numRuns n p : Nat) (w : World) :
    (experiment numRuns n p w).prrResults.length = numRuns := by
  rw [experiment_prrResults numRuns n p w ⟨0, 0⟩, List.length_map, List.length_range]

theorem runDraws_congr (w1 w2 : World) (j : Nat) (hrand : w1.rand = w2.rand)
    (hseed : seedOf w1 j = seedOf w2 j) (hrec : w1.receptions j = w2.receptions j) :
    runDraws w1 j = runDraws w2 j := by
  unfold runDraws
  rw [hrand, hseed, hrec]

theorem oneReceptionWorld_prrResults :
    (SimpleNetworkExample.main oneReceptionWorld).prrResults =
      F64.fin (2345624805922133 / 140737488355328) :: List.replicate 9 (F64.fin 0) := by
  have h0 : runCounters 10 numEndDevices [99] ⟨0, 0⟩ = ⟨6, 1⟩ := by decide
  have h1 : runCounters 10 numEndDevices [] ⟨0, 0⟩ = ⟨6, 0⟩ := by decide
  have hr : List.range numRuns = [0, 1, 2, 3, 4, 5, 6, 7, 8, 9] := by decide
  have hd0 : runDraws oneReceptionWorld 0 = [99] := by decide
  have hd : ∀ j, 0 < j → runDraws oneReceptionWorld j = [] := by
    intro j hj
    simp [runDraws, oneReceptionWorld, Nat.pos_iff_ne_zero.mp hj]
  have hz : computePrr ⟨6, 0⟩ = F64.fin 0 := computePrr_zero_received 6 (by norm_num) (by norm_num)
  unfold SimpleNetworkExample.main
  rw [experiment_prrResults _ _ _ _ ⟨0, 0⟩, hr]
  simp only [List.map_cons, List.map_nil, hd0, hd 1 (by norm_num), hd 2 (by norm_num),
    hd 3 (by norm_num), hd 4 (by norm_num), hd 5 (by norm_num), hd 6 (by norm_num),
    hd 7 (by norm_num), hd 8 (by norm_num), hd 9 (by norm_num), runPrr, h0, h1, hz,
    computePrr_one_of_six]
  rfl

theorem averagePrr_hundred_zero_zero :
    averagePrr [F64.fin 100, F64.fin 0, F64.fin 0] =
      F64.fin (4691249611844267 / 140737488355328) := by
  have h100 : F64.round 100 = F64.fin 100 := by simpa using round_natCast 100 (by norm_num)
  have h3 : F64.ofNat 3 = F64.fin 3 := by simpa using ofNat_eq 3 (by norm_num)
  simp only [averagePrr, List.foldl_cons, List.foldl_nil, add_fin, zero_add, add_zero, h100,
    List.length_cons, List.length_nil, h3]
  rw [div_fin _ _ (by norm_num)]
  exact round_hundred_thirds

theorem range_of_one_le (x : ℚ) (h1 : 1 ≤ x) (h2 : x ≤ 100) :
    (2 : ℚ) ^ (-900 : ℤ) ≤ x ∧ x ≤ (2 : ℚ) ^ (900 : ℤ) := by
  have a : (2 : ℚ) ^ (-900 : ℤ) ≤ (2 : ℚ) ^ (0 : ℤ) :=
    zpow_le_zpow_right₀ (by norm_num) (by norm_num)
  have b : (2 : ℚ) ^ (7 : ℤ) ≤ (2 : ℚ) ^ (900 : ℤ) :=
    zpow_le_zpow_right₀ (by norm_num) (by norm_num)
  rw [zpow_zero] at a
  have c : (100 : ℚ) ≤ (2 : ℚ) ^ (7 : ℤ) := by norm_num
  exact ⟨le_trans a h1, le_trans h2 (le_trans c b)⟩

theorem computePrr_zero_total (c : Counters) (ht : c.totalPackets = 0)
    (hrb : c.receivedPackets < 2 ^ 53) :
    computePrr c = if c.receivedPackets = 0 then F64.nan else F64.inf false := by
  unfold computePrr
  rw [ht, ofNat_eq _ hrb, ofNat_hundred]
  have h0 : F64.ofNat 0 = F64.fin 0 := by simpa using ofNat_eq 0 (by norm_num)
  rw [h0]
  by_cases hr : c.receivedPackets = 0
  · simp [hr, F64.div, F64.mul]
  · have hq : (c.receivedPackets : ℚ) ≠ 0 := by exact_mod_cast hr
    have hpos : ¬ ((c.receivedPackets : ℚ) < 0) := by
      rw [not_lt]; exact Nat.cast_nonneg _
    simp [hr, F64.div, F64.mul, hq, hpos]

/-- C1: in a run (counters reset, `totalPackets` incremented once per end device, then at
most one reception callback per device, with arbitrary draws) the counters satisfy
`0 ≤ receivedPackets ≤ totalPackets` after every callback and where the PRR is computed. -/
theorem C1_received_le_total (p n : Nat) (c0 : Counters) (draws : List Nat)
    (hn : n < uint32Size) (hlen : draws.length ≤ n) :
    (∀ k : Nat,
      0 ≤ (simulatorRun p (draws.take k) (setDataRates n (resetCounters c0))).receivedPackets ∧
      (simulatorRun p (draws.take k) (setDataRates n (resetCounters c0))).receivedPackets ≤
        (simulatorRun p (draws.take k) (setDataRates n (resetCounters c0))).totalPackets) ∧
    0 ≤ (runCounters p n draws c0).receivedPackets ∧
    (runCounters p n draws c0).receivedPackets ≤ (runCounters p n draws c0).totalPackets := by
  refine ⟨fun k => ⟨Nat.zero_le _, ?_⟩, Nat.zero_le _, runCounters_received_le p n draws c0 hn hlen⟩
  exact runCounters_received_le p n (draws.take k) c0 hn
    (le_trans (List.length_take_le' k draws) hlen)

theorem C1_received_le_total_witness :
    6 < uint32Size ∧ [5, 50, 99, 3, 10, 9].length ≤ 6 ∧
    (runCounters 10 6 [5, 50, 99, 3, 10, 9] ⟨17, 4⟩).receivedPackets ≤
      (runCounters 10 6 [5, 50, 99, 3, 10, 9] ⟨17, 4⟩).totalPackets :=
  ⟨by decide, by decide,
    (C1_received_le_total 10 6 ⟨17, 4⟩ [5, 50, 99, 3, 10, 9] (by decide) (by decide)).2.2⟩

/-- C2 fails as stated: a run of `simple-network-example.cc` in which one of the six
packets is counted leaves `totalPackets = 6`, `receivedPackets = 1`, and the appended PRR
is the double `2345624805922133 / 2 ^ 47` (16.666666666666664), not the rational
`100 * 1 / 6`. -/
theorem C2_counterexample :
    runCounters 10 numEndDevices [99] ⟨0, 0⟩ = ⟨6, 1⟩ ∧
    runPrr 10 numEndDevices [99] ⟨0, 0⟩ = F64.fin (2345624805922133 / 140737488355328) ∧
    runPrr 10 numEndDevices [99] ⟨0, 0⟩ ≠ F64.fin (100 * 1 / 6) := by
  have hc : runCounters 10 numEndDevices [99] ⟨0, 0⟩ = ⟨6, 1⟩ := by decide
  have hv : runPrr 10 numEndDevices [99] ⟨0, 0⟩ =
      F64.fin (2345624805922133 / 140737488355328) := by
    unfold runPrr
    rw [hc]
    exact computePrr_one_of_six
  refine ⟨hc, hv, ?_⟩
  rw [hv]
  intro h
  have := F64.fin.inj h
  norm_num at this

/-- C2 (as the code has it): for every run with `totalPackets > 0` the value appended to
`prrResults` is the double obtained from the counter values left by `Simulator::Run` by
the binary64 division of `receivedPackets` by `totalPackets` followed by the binary64
multiplication by `100`; it is finite, it is `100 * receivedPackets / totalPackets` up to
those two roundings, a relative error of at most `2 ^ (-52)`, and it is exactly that
rational whenever `totalPackets` divides `receivedPackets` (nothing or everything
received). -/
theorem C2_prr_value (p n : Nat) (c0 : Counters) (draws : List Nat)
    (hsent : 0 < (runCounters p n draws c0).totalPackets) :
    runPrr p n draws c0 =
      F64.mul
        (F64.div (F64.ofNat (runCounters p n draws c0).receivedPackets)
          (F64.ofNat (runCounters p n draws c0).totalPackets))
        (F64.ofNat 100) ∧
    ∃ v : ℚ, runPrr p n draws c0 = F64.fin v ∧
      |v - 100 * ((runCounters p n draws c0).receivedPackets : ℚ) /
          ((runCounters p n draws c0).totalPackets : ℚ)| * 2 ^ 52 ≤
        100 * ((runCounters p n draws c0).receivedPackets : ℚ) /
          ((runCounters p n draws c0).totalPackets : ℚ) ∧
      ((runCounters p n draws c0).totalPackets ∣ (runCounters p n draws c0).receivedPackets →
        v = 100 * ((runCounters p n draws c0).receivedPackets : ℚ) /
          ((runCounters p n draws c0).totalPackets : ℚ)) := by
  refine ⟨rfl, ?_⟩
  have htb := runCounters_totalPackets_lt p n draws c0
  have hrb := runCounters_receivedPackets_lt p n draws c0
  unfold runPrr
  generalize runCounters p n draws c0 = c at hsent htb hrb
  rcases Nat.eq_zero_or_pos c.receivedPackets with hr0 | hrpos
  · have hd : c.totalPackets ∣ c.receivedPackets := by rw [hr0]; exact dvd_zero _
    refine ⟨_, computePrr_of_dvd c hsent htb hrb hd, ?_, fun _ => rfl⟩
    simp [hr0]
  · obtain ⟨v, hv, herr⟩ := computePrr_rel_err c hrpos hsent hrb htb
    refine ⟨v, hv, herr, fun hd => ?_⟩
    have := computePrr_of_dvd c hsent htb hrb hd
    rw [hv] at this
    exact F64.fin.inj this

theorem C2_prr_value_witness :
    0 < (runCounters 10 6 [5, 50, 99, 3, 10, 9] ⟨17, 4⟩).totalPackets ∧
    ∃ v : ℚ, runPrr 10 6 [5, 50, 99, 3, 10, 9] ⟨17, 4⟩ = F64.fin v ∧
      |v - 100 * ((runCounters 10 6 [5, 50, 99, 3, 10, 9] ⟨17, 4⟩).receivedPackets : ℚ) /
          ((runCounters 10 6 [5, 50, 99, 3, 10, 9] ⟨17, 4⟩).totalPackets : ℚ)| * 2 ^ 52 ≤
        100 * ((runCounters 10 6 [5, 50, 99, 3, 10, 9] ⟨17, 4⟩).receivedPackets : ℚ) /
          ((runCounters 10 6 [5, 50, 99, 3, 10, 9] ⟨17, 4⟩).totalPackets : ℚ) ∧
      ((runCounters 10 6 [5, 50, 99, 3, 10, 9] ⟨17, 4⟩).totalPackets ∣
          (runCounters 10 6 [5, 50, 99, 3, 10, 9] ⟨17, 4⟩).receivedPackets →
        v = 100 * ((runCounters 10 6 [5, 50, 99, 3, 10, 9] ⟨17, 4⟩).receivedPackets : ℚ) /
          ((runCounters 10 6 [5, 50, 99, 3, 10, 9] ⟨17, 4⟩).totalPackets : ℚ)) :=
  ⟨by decide, (C2_prr_value 10 6 ⟨17, 4⟩ [5, 50, 99, 3, 10, 9] (by decide)).2⟩

/-- C4 fails as stated for a long enough sequence: after `2 ^ 32` callbacks whose draw is
`99` (never below `10`) the 32-bit counter has wrapped to `0`, while `2 ^ 32` draws
satisfy `r % 100 ≥ 10`. -/
theorem C4_counterexample :
    (simulatorRun 10 (List.replicate (2 ^ 32) 99) ⟨6, 0⟩).receivedPackets = 0 ∧
    (List.replicate (2 ^ 32) 99).countP (fun r => decide (10 ≤ r % 100)) = 2 ^ 32 := by
  have hdel : (fun r => decide (10 ≤ r % 100)) = delivered 10 := rfl
  have hcnt : (List.replicate (2 ^ 32) 99).countP (delivered 10) = 2 ^ 32 := by
    rw [List.countP_replicate]
    rfl
  rw [hdel, simulatorRun_receivedPackets 10 _ ⟨6, 0⟩ (by decide), hcnt]
  exact ⟨by decide, rfl⟩

/-- C4 (as the code has it): starting from `receivedPackets = 0`, for every finite sequence
of `rand()` results of which fewer than `2 ^ 32` pass the test (the counter is a
`uint32_t`), the `k`-th callback leaves `receivedPackets` unchanged exactly when
`r_k % 100 < p` and otherwise adds exactly one, and the final `receivedPackets` is the
number of `k` with `r_k % 100 ≥ p`; `p` is `10` in `simple-network-example.cc` and `90` in
`simplr-network-example1.cc`. -/
theorem C4_received_counts_delivered (p : Nat) (c : Counters) (draws : List Nat)
    (hc : c.receivedPackets = 0)
    (hcount : draws.countP (fun r => decide (p ≤ r % 100)) < uint32Size) :
    (∀ (pre post : List Nat) (r : Nat), draws = pre ++ r :: post →
      (simulatorRun p (pre ++ [r]) c).receivedPackets =
        if r % 100 < p then (simulatorRun p pre c).receivedPackets
        else (simulatorRun p pre c).receivedPackets + 1) ∧
    (simulatorRun p draws c).receivedPackets =
      draws.countP (fun r => decide (p ≤ r % 100)) := by
  have hdel : (fun r => decide (p ≤ r % 100)) = delivered p := rfl
  rw [hdel] at hcount ⊢
  have hc0 : c.receivedPackets < uint32Size := by rw [hc]; decide
  constructor
  · intro pre post r hsplit
    rw [simulatorRun_append, simulatorRun_cons, simulatorRun_nil, callback_receivedPackets]
    by_cases h : r % 100 < p
    · rw [if_pos h, if_pos h]
    · rw [if_neg h, if_neg h]
      apply Nat.mod_eq_of_lt
      rw [simulatorRun_receivedPackets p pre c hc0, hc, Nat.zero_add]
      have hr : delivered p r = true := by simp [delivered]; omega
      have hle : pre.countP (delivered p) + 1 ≤ draws.countP (delivered p) := by
        rw [hsplit, List.countP_append, List.countP_cons, hr]
        simp
      have := Nat.mod_le (pre.countP (delivered p)) uint32Size
      omega
  · rw [simulatorRun_receivedPackets p draws c hc0, hc, Nat.zero_add]
    exact Nat.mod_eq_of_lt hcount

theorem C4_received_counts_delivered_witness :
    (simulatorRun 10 [5, 50, 99, 3, 10, 9] ⟨6, 0⟩).receivedPackets =
      [5, 50, 99, 3, 10, 9].countP (fun r => decide (10 ≤ r % 100)) :=
  (C4_received_counts_delivered 10 ⟨6, 0⟩ [5, 50, 99, 3, 10, 9] rfl (by decide)).2

/-- C5: the reception callback never changes `totalPackets`, and where the PRR is
computed `totalPackets` is the number of end devices, `6`, for every number of reception
callbacks, every sequence of draws and every earlier value of the counters. -/
theorem C5_totalPackets_is_device_count :
    (∀ (p r : Nat) (c : Counters), (PacketReceivedCallback p r c).totalPackets = c.totalPackets) ∧
    (∀ (p : Nat) (draws : List Nat) (c : Counters),
      (simulatorRun p draws c).totalPackets = c.totalPackets) ∧
    (∀ (p : Nat) (draws : List Nat) (c0 : Counters),
      (runCounters p numEndDevices draws c0).totalPackets = 6) := by
  refine ⟨callback_totalPackets, simulatorRun_totalPackets, fun p draws c0 => ?_⟩
  rw [runCounters_totalPackets]
  decide

/-- C6 fails as stated.  In the execution of `simple-network-example.cc` in which the
first run counts one packet of six and the other nine runs count none, the reported
average is the double `3752999689475413 / 2 ^ 51` (1.6666666666666665), which is not the
sum of the ten results divided by ten; and the average of `[100, 0, 0]` is the double
`4691249611844267 / 2 ^ 47` (33.333333333333336), not `100 / 3`. -/
theorem C6_counterexample :
    (SimpleNetworkExample.main oneReceptionWorld).prrResults =
      F64.fin (2345624805922133 / 140737488355328) :: List.replicate 9 (F64.fin 0) ∧
    (SimpleNetworkExample.main oneReceptionWorld).averagePrr =
      F64.fin (3752999689475413 / 2251799813685248) ∧
    (3752999689475413 / 2251799813685248 : ℚ) ≠
      (2345624805922133 / 140737488355328 + 9 * 0) / 10 ∧
    averagePrr [F64.fin 100, F64.fin 0, F64.fin 0] =
      F64.fin (4691249611844267 / 140737488355328) ∧
    (4691249611844267 / 140737488355328 : ℚ) ≠ (100 + 0 + 0) / 3 := by
  refine ⟨oneReceptionWorld_prrResults, ?_, by norm_num, averagePrr_hundred_zero_zero,
    by norm_num⟩
  have h10 : F64.ofNat 10 = F64.fin 10 := by simpa using ofNat_eq 10 (by norm_num)
  unfold SimpleNetworkExample.main
  rw [experiment_averagePrr]
  have := oneReceptionWorld_prrResults
  unfold SimpleNetworkExample.main at this
  rw [this]
  simp only [averagePrr, List.replicate, List.foldl_cons, List.foldl_nil, add_fin, zero_add,
    add_zero, round_prr_one_of_six, List.length_cons, List.length_nil, h10]
  rw [div_fin _ _ (by norm_num)]
  exact round_prr_one_of_six_div_ten

/-- C6 (as the code has it): the reported average is the binary64 quotient of the
left-to-right binary64 sum of the list by its length.  For a non-empty list (fewer than
`2 ^ 52` entries) of finite values, each `0` or in `[2 ^ (-900), 2 ^ 900]`, it is a finite
double within a relative error of `(length + 1) * 2 ^ (-52)` of the exact sum divided by
the length, and it equals that quotient whenever every partial sum and the quotient are
representable doubles; in particular a list whose entries are all `100` (at most `2 ^ 46`
of them) has mean `100`, a list whose entries are all `0` has mean `0`, and `[100, 0]` has
mean `50`. -/
theorem C6_mean (l : List ℚ) (hne : l ≠ []) (hlen : l.length < 2 ^ 52)
    (hrange : ∀ x ∈ l, x = 0 ∨ ((2 : ℚ) ^ (-900 : ℤ) ≤ x ∧ x ≤ (2 : ℚ) ^ (900 : ℤ))) :
    averagePrr (l.map F64.fin) =
      F64.div ((l.map F64.fin).foldl F64.add (F64.fin 0)) (F64.ofNat (l.map F64.fin).length) ∧
    (∃ v : ℚ, averagePrr (l.map F64.fin) = F64.fin v ∧
      |v - l.sum / l.length| * 2 ^ 52 ≤ (l.length + 1) * (l.sum / l.length)) ∧
    ((∀ k, k ≤ l.length → F64.round (l.take k).sum = F64.fin (l.take k).sum) →
      F64.round (l.sum / l.length) = F64.fin (l.sum / l.length) →
      averagePrr (l.map F64.fin) = F64.fin (l.sum / l.length)) ∧
    (∀ n : Nat, 0 < n → n ≤ 2 ^ 46 →
      averagePrr (List.replicate n (F64.fin 100)) = F64.fin 100) ∧
    (∀ n : Nat, 0 < n → averagePrr (List.replicate n (F64.fin 0)) = F64.fin 0) ∧
    averagePrr [F64.fin 100, F64.fin 0] = F64.fin 50 :=
  ⟨rfl, averagePrr_rel_err l hne hlen hrange,
    fun hsums hquot => averagePrr_exact l hne (lt_trans hlen (by norm_num)) hsums hquot,
    averagePrr_replicate_hundred, averagePrr_replicate_zero, averagePrr_hundred_zero⟩

theorem C6_mean_witness :
    (∃ v : ℚ, averagePrr ([100, 50, 0, 50].map F64.fin) = F64.fin v ∧
      |v - ([100, 50, 0, 50] : List ℚ).sum / ([100, 50, 0, 50] : List ℚ).length| * 2 ^ 52 ≤
        (([100, 50, 0, 50] : List ℚ).length + 1) *
          (([100, 50, 0, 50] : List ℚ).sum / ([100, 50, 0, 50] : List ℚ).length)) ∧
    averagePrr ([100, 50, 0, 50].map F64.fin) =
      F64.fin (([100, 50, 0, 50] : List ℚ).sum / ([100, 50, 0, 50] : List ℚ).length) ∧
    averagePrr (List.replicate 10 (F64.fin 100)) = F64.fin 100 :=
  have h := C6_mean [100, 50, 0, 50] (by simp) (by simp)
    (by
      intro x hx
      simp only [List.mem_cons, List.mem_singleton, List.mem_nil_iff, or_false] at hx
      rcases hx with h | h | h | h
      · right; rw [h]; exact range_of_one_le 100 (by norm_num) (by norm_num)
      · right; rw [h]; exact range_of_one_le 50 (by norm_num) (by norm_num)
      · left; exact h
      · right; rw [h]; exact range_of_one_le 50 (by norm_num) (by norm_num))
  ⟨h.2.1,
    h.2.2.1
      (by
        intro k hk
        have hk4 : k ≤ 4 := hk
        interval_cases k
        · simpa using round_zero
        · simpa using round_natCast 100 (by norm_num)
        · have := round_natCast 150 (by norm_num)
          norm_num at this ⊢
          exact this
        · have := round_natCast 150 (by norm_num)
          norm_num at this ⊢
          exact this
        · have := round_natCast 200 (by norm_num)
          norm_num at this ⊢
          exact this)
      (by
        have := round_natCast 50 (by norm_num)
        norm_num at this ⊢
        exact this),
    h.2.2.2.1 10 (by norm_num) (by norm_num)⟩

/-- C7: when the experiment loop of either example has finished, `prrResults` has exactly
`numRuns = 10` entries, the entry at index `j` is the PRR of run `j` (whatever the counters
held on entry to that iteration), and the output file holds exactly those entries, one line
each, in the same order. -/
theorem C7_results_in_run_order (w : World) :
    ((SimpleNetworkExample.main w).prrResults.length = 10 ∧
      (∀ (j : Nat) (c : Counters), j < 10 →
        (SimpleNetworkExample.main w).prrResults[j]? =
          some (runPrr 10 numEndDevices (runDraws w j) c)) ∧
      (SimpleNetworkExample.main w).outFile = some (SimpleNetworkExample.main w).prrResults) ∧
    ((SimplrNetworkExample1.main w).prrResults.length = 10 ∧
      (∀ (j : Nat) (c : Counters), j < 10 →
        (SimplrNetworkExample1.main w).prrResults[j]? =
          some (runPrr 90 numEndDevices (runDraws w j) c)) ∧
      (SimplrNetworkExample1.main w).outFile =
        some (SimplrNetworkExample1.main w).prrResults) := by
  unfold SimpleNetworkExample.main SimplrNetworkExample1.main
  exact ⟨⟨experiment_length _ _ _ _, fun j c hj => experiment_getElem? _ _ _ _ c j hj,
      experiment_outFile _ _ _ _⟩,
    ⟨experiment_length _ _ _ _, fun j c hj => experiment_getElem? _ _ _ _ c j hj,
      experiment_outFile _ _ _ _⟩⟩

theorem C7_results_in_run_order_witness :
    (SimpleNetworkExample.main oneReceptionWorld).prrResults[3]? =
      some (runPrr 10 numEndDevices (runDraws oneReceptionWorld 3) ⟨6, 2⟩) :=
  (C7_results_in_run_order oneReceptionWorld).1.2.1 3 ⟨6, 2⟩ (by decide)

/-- C8: no counter state survives across runs.  The loop body first sets both counters
to `0` whatever they held, so the counters and the PRR of an iteration do not depend on the
values the previous iteration left (they are those of a run entered with any counters `c`);
and the PRR of run `j` is the same in two executions
whose run `j` consumes the same draws, however their other runs differ. -/
theorem C8_no_state_across_runs (p : Nat) (w w' : World) (j : Nat) (c c' : Counters)
    (hj : j < numRuns) (hdraws : runDraws w j = runDraws w' j) :
    resetCounters c = { totalPackets := 0, receivedPackets := 0 } ∧
    (∀ draws : List Nat, runCounters p numEndDevices draws c = runCounters p numEndDevices draws c' ∧
      runPrr p numEndDevices draws c = runPrr p numEndDevices draws c') ∧
    (∀ st : MainState,
      (loopBody p numEndDevices w st j).counters =
        runCounters p numEndDevices (runDraws w j) c ∧
      (loopBody p numEndDevices w st j).prrResults =
        st.prrResults ++ [runPrr p numEndDevices (runDraws w j) c]) ∧
    (experiment numRuns numEndDevices p w).prrResults[j]? =
      (experiment numRuns numEndDevices p w').prrResults[j]? := by
  refine ⟨rfl, fun draws => ⟨runCounters_indep _ _ _ _ _, runPrr_indep _ _ _ _ _⟩,
    fun st => ⟨runCounters_indep _ _ _ _ _, ?_⟩, ?_⟩
  · show st.prrResults ++ [runPrr p numEndDevices (runDraws w j) st.counters] = _
    rw [runPrr_indep _ _ _ st.counters c]
  · rw [experiment_getElem? _ _ _ w c j hj, experiment_getElem? _ _ _ w' c j hj, hdraws]

theorem C8_no_state_across_runs_witness :
    0 < numRuns ∧ runDraws oneReceptionWorld 0 = runDraws busyWorld 0 ∧
    (experiment numRuns numEndDevices 10 oneReceptionWorld).prrResults[0]? =
      (experiment numRuns numEndDevices 10 busyWorld).prrResults[0]? :=
  ⟨by decide, by decide,
    (C8_no_state_across_runs 10 oneReceptionWorld busyWorld 0 ⟨6, 1⟩ ⟨6, 6⟩ (by decide)
      (by decide)).2.2.2⟩

/-- C9: determinism.  Two executions of the same configuration with the same `rand`
implementation, in which every run `j` passes the same seed to `srand` and sees the same
number of reception events, produce the same sequence of per-run PRR values. -/
theorem C9_determinism (p : Nat) (w1 w2 : World) (hrand : w1.rand = w2.rand)
    (hseed : ∀ j, j < numRuns → seedOf w1 j = seedOf w2 j)
    (hrec : ∀ j, j < numRuns → w1.receptions j = w2.receptions j) :
    (experiment numRuns numEndDevices p w1).prrResults =
      (experiment numRuns numEndDevices p w2).prrResults := by
  rw [experiment_prrResults _ _ _ w1 ⟨0, 0⟩, experiment_prrResults _ _ _ w2 ⟨0, 0⟩]
  apply List.map_congr_left
  intro j hj
  have hlt : j < numRuns := List.mem_range.mp hj
  rw [runDraws_congr w1 w2 j hrand (hseed j hlt) (hrec j hlt)]

theorem C9_determinism_witness :
    (clockWorld 5).time 0 ≠ (clockWorld (5 + 2 ^ 32)).time 0 ∧
    (experiment numRuns numEndDevices 10 (clockWorld 5)).prrResults =
      (experiment numRuns numEndDevices 10 (clockWorld (5 + 2 ^ 32))).prrResults :=
  ⟨by decide, C9_determinism 10 (clockWorld 5) (clockWorld (5 + 2 ^ 32)) rfl (by decide)
    (by decide)⟩

end LorawanPrr
